import Mathlib

/-!
Verification of the `cafe.py` scraper (TimeOut London cafés).

The Python source is shallowly embedded over `List Char` (Python `str`
values).  BeautifulSoup documents are represented by the projections the
code actually reads: the list of content text blocks, the list of
heading/anchor elements used for link resolution, and the list of
headings (with their trailing siblings and nearby anchors) used by the
fallback extractor.  Regular-expression calls are embedded by direct
implementations of the specific patterns the source uses, following
Python `re` semantics (leftmost match, greedy/lazy backtracking order,
`$` matching at end of string or before a final newline, `IGNORECASE`
as ASCII case folding, `DOTALL` toggling whether `.` crosses newlines).
-/

namespace Cafe

/-- Python whitespace (`str.strip`, `str.split()`, regex `\s`), ASCII range. -/
def isPySpace (c : Char) : Bool :=
  c = ' ' || c = '\t' || c = '\n' || c = '\r' || c = '\x0B' || c = '\x0C'

/-- `str.lower()` (ASCII case folding; every cased literal in the source is ASCII). -/
def lowerStr (s : List Char) : List Char := s.map Char.toLower

/-- `str.strip()` with no arguments. -/
def pyStrip (s : List Char) : List Char :=
  ((s.dropWhile isPySpace).reverse.dropWhile isPySpace).reverse

/-- Python substring test `pat in s` (contiguous substring). -/
def containsSub (pat : List Char) : List Char → Bool
  | [] => pat.isEmpty
  | c :: rest => pat.isPrefixOf (c :: rest) || containsSub pat rest

/-- Case-insensitive prefix test (a literal matched under `re.IGNORECASE`). -/
def isPfxCI (pat s : List Char) : Bool := (lowerStr pat).isPrefixOf (lowerStr s)

/-- Split on a character class, keeping empty pieces (`str.split(sep)` semantics). -/
def splitOnP (p : Char → Bool) : List Char → List (List Char)
  | [] => [[]]
  | c :: rest =>
    match splitOnP p rest with
    | [] => if p c then [[], []] else [[c]]
    | h :: t => if p c then [] :: h :: t else (c :: h) :: t

/-- `s.split('\n')`. -/
def splitNl (s : List Char) : List (List Char) := splitOnP (fun c => c = '\n') s

/-- `s.split()` with no arguments: whitespace runs separate, empties dropped. -/
def pySplitWs (s : List Char) : List (List Char) :=
  (splitOnP isPySpace s).filter (fun w => !w.isEmpty)

/-- `sep.join(blocks)` for a one-character separator. -/
def joinSep (sep : Char) : List (List Char) → List Char
  | [] => []
  | [b] => b
  | b :: bs => b ++ sep :: joinSep sep bs

/-- Fuel-driven core of `str.replace(pat, '')`. -/
def replaceSubAux (pat : List Char) : Nat → List Char → List Char
  | 0, s => s
  | _ + 1, [] => []
  | fuel + 1, c :: rest =>
    if !pat.isEmpty && pat.isPrefixOf (c :: rest) then
      replaceSubAux pat fuel ((c :: rest).drop pat.length)
    else
      c :: replaceSubAux pat fuel rest

/-- `s.replace(pat, '')`: delete every (leftmost, non-overlapping) occurrence. -/
def replaceSub (pat s : List Char) : List Char := replaceSubAux pat s.length s

/-- The suffix of `s` after the first occurrence of `pat` (`none` if absent). -/
def dropThroughSub (pat : List Char) : List Char → Option (List Char)
  | [] => if pat.isEmpty then some [] else none
  | c :: rest =>
    if pat.isPrefixOf (c :: rest) then some ((c :: rest).drop pat.length)
    else dropThroughSub pat rest

/-- `re.split(r'(?=PAT)', s)` for a non-empty literal `PAT`: cut before every
occurrence of `pat` (a cut at position 0 yields a leading empty piece). -/
def splitBeforeGo (pat : List Char) : List Char → List Char → List (List Char)
  | [], acc => [acc.reverse]
  | c :: rest, acc =>
    if pat.isPrefixOf (c :: rest) then acc.reverse :: splitBeforeGo pat rest [c]
    else splitBeforeGo pat rest (c :: acc)

/-- See `splitBeforeGo`. -/
def splitBefore (pat s : List Char) : List (List Char) := splitBeforeGo pat s []

/-! ### The `PRE\s*(.+?)(?=ALT1|...|$)` field patterns

Every field regex in the source has the shape
`PRE\s*(.+?)(?=A|B|...|$)` (or, for the fallback opening-hours pattern,
a consuming `(?:\.|$)`, which captures the same group).  `lookaheadOk`
decides whether the alternation (or `$`) matches at a position given the
remaining text; without `re.MULTILINE`, `$` matches at the end of the
string or just before a final newline. -/

def lookaheadOk (alts : List (List Char)) (rest : List Char) : Bool :=
  alts.any (fun a => isPfxCI a rest) || rest.isEmpty || rest = ['\n']

/-- The lazy group `(.+?)` followed by the lookahead: the shortest non-empty
prefix whose end position satisfies `lookaheadOk`.  With `dotall = false`
(`re.DOTALL` absent) the group may not cross a newline. -/
def lazyGroup (alts : List (List Char)) (dotall : Bool) : List Char → Option (List Char)
  | [] => none
  | c :: rest =>
    if !dotall && c = '\n' then none
    else if lookaheadOk alts rest then some [c]
    else (lazyGroup alts dotall rest).map (fun g => c :: g)

/-- Backtracking over greedy `\s*`: try consuming `k` leading whitespace
characters, largest `k` first, before the lazy group. -/
def wsBacktrack (alts : List (List Char)) (dotall : Bool) (t : List Char) : Nat → Option (List Char)
  | 0 => lazyGroup alts dotall t
  | k + 1 =>
    match lazyGroup alts dotall (t.drop (k + 1)) with
    | some g => some g
    | none => wsBacktrack alts dotall t k

/-- Match `\s*(.+?)(?=alts|$)` at the start of `t`. -/
def matchAfter (alts : List (List Char)) (dotall : Bool) (t : List Char) : Option (List Char) :=
  wsBacktrack alts dotall t (t.takeWhile isPySpace).length

/-- Try each alternative prefix (e.g. `Opening hours?:` has two expansions,
the greedy one first), each with the full continuation. -/
def tryPres (pres alts : List (List Char)) (dotall : Bool) (s : List Char) : Option (List Char) :=
  pres.findSome? (fun p => if isPfxCI p s then matchAfter alts dotall (s.drop p.length) else none)

/-- `re.search` for the field patterns: leftmost start position wins. -/
def reSearch (pres alts : List (List Char)) (dotall : Bool) : List Char → Option (List Char)
  | [] => none
  | c :: rest =>
    match tryPres pres alts dotall (c :: rest) with
    | some g => some g
    | none => reSearch pres alts dotall rest

/-! ### Data model and configuration -/

/-- The `entry` dict produced by the extractors (spec: VenueCandidate). -/
structure Entry where
  name : List Char
  description : List Char
  address : List Char
  opening_hours : List Char
  source_link : List Char
deriving DecidableEq, Repr

/-- `MAX_ITEMS = 20`. -/
def MAX_ITEMS : Nat := 20

/-- The configured article URL. -/
def URL : List Char :=
  "https://www.timeout.com/london/food-drink/londons-best-cafes-and-coffee-shops".data

/-- The marker phrase delimiting venue sections. -/
def MARKER : List Char := "What is it?".data

/-! ### urljoin, specialized to the article URL

`urllib.parse.urljoin(URL, href)` for the fixed article URL, covering the
href shapes the scraper passes it (no dot-segment normalization, which
only affects the path, never the scheme or host). -/

/-- Characters allowed in a URL scheme after the leading letter. -/
def isSchemeChar (c : Char) : Bool := c.isAlphanum || c = '+' || c = '-' || c = '.'

/-- Does `u` start with `scheme:` for a syntactically valid scheme? -/
def hasSchemePfx (u : List Char) : Bool :=
  match u with
  | [] => false
  | c :: _ =>
    c.isAlpha && ((u.drop (u.takeWhile isSchemeChar).length).head? == some ':')

/-- `https://www.timeout.com` (scheme and network location of `URL`). -/
def schemeHost : List Char := "https://www.timeout.com".data

/-- `URL`'s directory: the base against which relative paths are merged. -/
def baseDir : List Char := "https://www.timeout.com/london/food-drink/".data

/-- `urljoin(URL, href)`. -/
def urljoinURL (href : List Char) : List Char :=
  if href.isEmpty then URL
  else if hasSchemePfx href then
    let sch := lowerStr (href.takeWhile (fun c => c ≠ ':'))
    if sch = "https".data then
      let rest := href.drop (sch.length + 1)
      if "//".data.isPrefixOf rest then "https:".data ++ rest
      else if "/".data.isPrefixOf rest then schemeHost ++ rest
      else baseDir ++ rest
    else href
  else if "//".data.isPrefixOf href then "https:".data ++ href
  else if "/".data.isPrefixOf href then schemeHost ++ href
  else if "#".data.isPrefixOf href then URL ++ href
  else if "?".data.isPrefixOf href then URL ++ href
  else baseDir ++ href

/-- Scheme of a resolved URL (text before the first `:`). -/
def schemeOf (u : List Char) : List Char := u.takeWhile (fun c => c ≠ ':')

/-- Host of a resolved URL: text between `://` and the next delimiter. -/
def hostOf (u : List Char) : List Char :=
  match dropThroughSub "://".data u with
  | some r => r.takeWhile (fun c => c ≠ '/' && c ≠ '?' && c ≠ '#')
  | none => []

/-! ### Primary section extractor (`extract_article_entries`, lines 46-157) -/

/-- `re.sub(r'^\d+\.\s*', '', s)`: strip one leading ordinal prefix.  The
greedy `\d+` cannot backtrack usefully (shorter digit runs still face a
digit, not `.`), so take-all-digits-then-check is exact. -/
def stripOrdinal (s : List Char) : List Char :=
  let ds := s.takeWhile Char.isDigit
  if ds.isEmpty then s
  else
    match s.drop ds.length with
    | '.' :: rest => rest.dropWhile isPySpace
    | _ => s

/-- Does `s` start with a `\d+\.` ordinal prefix (i.e. would `stripOrdinal`
remove something)? -/
def hasOrdPfx (s : List Char) : Bool :=
  !(s.takeWhile Char.isDigit).isEmpty && (s.drop (s.takeWhile Char.isDigit).length).head? == some '.'

/-- The noise tokens of the primary name scan (line 92). -/
def nameNoise : List (List Char) :=
  ["recommended".data, "stars".data, "shopping".data, "out of".data]

/-- Name scan over the first five lines of a segment (lines 86-95): first
stripped line that is non-empty, under 100 characters, free of the marker
phrase and noise tokens, and at least two words; ordinal prefix removed. -/
def findName : List (List Char) → List Char
  | [] => []
  | l :: ls =>
    let line := pyStrip l
    if !line.isEmpty && line.length < 100 && !containsSub MARKER line &&
       !nameNoise.any (fun x => containsSub x (lowerStr line)) &&
       2 ≤ (pySplitWs line).length then
      pyStrip (stripOrdinal line)
    else findName ls

/-- One element of `main_content.find_all(['h2', 'h3', 'h4', 'a'])` as the
link-resolution loop reads it: its visible text, its own `href` when it is
an anchor, and the anchor reached by `elem.find('a')` / `elem.find_next('a')`
(outer `Option`: a truthy anchor was found; inner: its `href` attribute). -/
structure PElem where
  isAnchor : Bool
  text : List Char
  href : Option (List Char)
  innerA : Option (Option (List Char))
  nextA : Option (Option (List Char))
deriving DecidableEq, Repr

/-- Python truthiness of an optional `href` string. -/
def truthyO : Option (List Char) → Bool
  | some (_ :: _) => true
  | _ => false

/-- `Option.getD` on hrefs. -/
def getO (o : Option (List Char)) : List Char := o.getD []

/-- Slug `entry['name'].lower().replace(' ', '-')` (line 143). -/
def slugOf (nm : List Char) : List Char :=
  (lowerStr nm).map (fun c => if c = ' ' then '-' else c)

/-- Link resolution for a primary candidate (lines 131-145): first element
whose text is a case-insensitive substring of the name in either direction;
an anchor's own href is taken as is, otherwise a nearby anchor is accepted
only with a `/venue/` or name-slug href; no match leaves the link empty. -/
def resolveLink (elems : List PElem) (nm : List Char) : List Char :=
  match elems with
  | [] => []
  | e :: rest =>
    if containsSub (lowerStr nm) (lowerStr e.text) ||
       containsSub (lowerStr e.text) (lowerStr nm) then
      if e.isAnchor && truthyO e.href then urljoinURL (getO e.href)
      else
        match e.innerA.orElse (fun _ => e.nextA) with
        | some hrefO =>
          if truthyO hrefO then
            if containsSub "/venue/".data (getO hrefO) ||
               containsSub (slugOf nm) (lowerStr (getO hrefO)) then urljoinURL (getO hrefO)
            else resolveLink rest nm
          else resolveLink rest nm
        | none => resolveLink rest nm
    else resolveLink rest nm

/-- Field parsing of one marker segment (lines 77-123); `source_link` is
filled in by the caller. -/
def parseSegment (entry_text : List Char) : Entry :=
  let nm := findName ((splitNl entry_text).take 5)
  let d1 := ((reSearch [MARKER] ["Why we love it:".data, "Order this:".data, "Address:".data]
               true entry_text).map pyStrip).getD []
  let description :=
    if d1.isEmpty then
      ((reSearch ["Why we love it:".data] ["Order this:".data, "Address:".data]
         true entry_text).map pyStrip).getD []
    else d1
  let address :=
    match reSearch ["Address:".data] ["Opening hours:".data, "Opening hour:".data]
            true entry_text with
    | some a => pyStrip ((splitNl (pyStrip a)).headD [])
    | none => []
  let opening_hours :=
    match reSearch ["Opening hours:".data, "Opening hour:".data] [['\n', '\n']]
            true entry_text with
    | some h => (pyStrip h).map (fun c => if c = '\n' then ' ' else c)
    | none => []
  ⟨nm, description, address, opening_hours, []⟩

/-- Is a piece of the marker split a retained segment (contains the marker
and parses to a non-empty name and description)? -/
def validSeg (seg : List Char) : Bool :=
  containsSub MARKER seg &&
    !(parseSegment seg).name.isEmpty && !(parseSegment seg).description.isEmpty

/-- A retained segment's entry, with its link resolved (lines 127-147). -/
def entryLinked (elems : List PElem) (seg : List Char) : Entry :=
  let e := parseSegment seg
  { e with source_link := resolveLink elems e.name }

/-- The per-segment loop of `extract_article_entries` (lines 72-150):
skip pieces without the marker, parse, keep only name+description entries,
stop once `MAX_ITEMS` are accumulated. -/
def primaryGo (elems : List PElem) : List (List Char) → List Entry → List Entry
  | [], acc => acc.reverse
  | seg :: rest, acc =>
    if !containsSub MARKER seg then primaryGo elems rest acc
    else if !(parseSegment seg).name.isEmpty && !(parseSegment seg).description.isEmpty then
      if MAX_ITEMS ≤ (entryLinked elems seg :: acc).length then
        (entryLinked elems seg :: acc).reverse
      else primaryGo elems rest (entryLinked elems seg :: acc)
    else primaryGo elems rest acc

/-- The primary extractor applied to the normalized text stream (lines
70-151): split at every `What is it?` occurrence and run the loop. -/
def extractEntriesFromText (full_text : List Char) (elems : List PElem) : List Entry :=
  primaryGo elems (splitBefore MARKER full_text) []

/-! ### Fallback heading extractor (`extract_by_headings`, lines 159-246) -/

/-- A node in a heading's `next_sibling` chain.  `tag` carries the tag name,
bs4 truthiness (a tag with no contents is falsy and stops the `while`),
and `get_text(" ", strip=True)`; `navstring` is a bare string node. -/
inductive SibNode where
  | tag (nm : List Char) (truthyTag : Bool) (text : List Char)
  | navstring (s : List Char)
deriving DecidableEq, Repr

/-- Does a tag name match `re.match(r'^h[1-6]$', name)`? -/
def isHTag (nm : List Char) : Bool :=
  match nm with
  | ['h', c] => '1' ≤ c && c ≤ '6'
  | _ => false

/-- One `h2`/`h3`/`h4` of `soup.find_all` as `extract_by_headings` reads it:
the heading text, its following siblings, and the anchors reached by
`h.find('a')` / `h.find_next('a')` (outer `Option`: a truthy anchor exists;
inner: its `href`). -/
structure HNode where
  text : List Char
  siblings : List SibNode
  innerA : Option (Option (List Char))
  nextA : Option (Option (List Char))
deriving DecidableEq, Repr

/-- The sibling-collection loop (lines 190-200): walk until a falsy node or
an `h1`-`h6` tag, gathering up to ten non-empty texts. -/
def collectSiblings : List SibNode → List (List Char) → List (List Char)
  | [], acc => acc.reverse
  | n :: rest, acc =>
    if 10 ≤ acc.length then acc.reverse
    else
      match n with
      | .tag nm tr t =>
        if !tr then acc.reverse
        else if isHTag nm then acc.reverse
        else collectSiblings rest (if t.isEmpty then acc else t :: acc)
      | .navstring s =>
        if s.isEmpty then acc.reverse
        else collectSiblings rest (if (pyStrip s).isEmpty then acc else pyStrip s :: acc)

/-- The generic-heading denylist (line 173). -/
def headingNoise : List (List Char) :=
  ["best café".data, "top".data, "london".data, "time out".data]

/-- Field parsing of a heading's collected text (lines 202-224). -/
def parseHeadingText (full_text : List Char) : List Char × List Char × List Char :=
  let description :=
    if containsSub MARKER full_text then
      ((reSearch [MARKER] ["Why we love it:".data, "Address:".data]
         false full_text).map pyStrip).getD []
    else []
  let description :=
    if description.isEmpty && 50 < full_text.length then full_text.take 500 else description
  let address :=
    if containsSub "Address:".data full_text then
      ((reSearch ["Address:".data] ["Opening".data] false full_text).map pyStrip).getD []
    else []
  let opening_hours :=
    if containsSub "Opening hours".data full_text ||
       containsSub "Opening Hours".data full_text then
      ((reSearch ["Opening hours:".data, "Opening hour:".data] [".".data]
         false full_text).map pyStrip).getD []
    else []
  (description, address, opening_hours)

/-- Link resolution for a heading (lines 227-232): the heading's own anchor,
else the next anchor, accepted when the href contains `/venue/` or is not
scheme-absolute (`startswith('http')` false). -/
def headingLink (h : HNode) : List Char :=
  match h.innerA.orElse (fun _ => h.nextA) with
  | some hrefO =>
    if truthyO hrefO then
      if containsSub "/venue/".data (getO hrefO) ||
         !"http".data.isPrefixOf (getO hrefO) then urljoinURL (getO hrefO)
      else []
    else []
  | none => []

/-- The entry a surviving heading contributes (lines 235-241). -/
def headingEntry (h : HNode) (nm : List Char) : Entry :=
  let f := parseHeadingText (joinSep ' ' (collectSiblings h.siblings []))
  ⟨nm, f.1, f.2.1, f.2.2, headingLink h⟩

/-- The heading loop (lines 167-244): skip empty, over-long, generic, seen,
or single-word names; record the name as seen; keep entries with a
description; stop at `MAX_ITEMS`. -/
def fbGo : List HNode → List (List Char) → List Entry → List Entry
  | [], _, acc => acc.reverse
  | h :: rest, seen, acc =>
    if h.text.isEmpty || 100 < h.text.length then fbGo rest seen acc
    else if headingNoise.any (fun x => containsSub x (lowerStr h.text)) then fbGo rest seen acc
    else
      let nm := pyStrip (stripOrdinal h.text)
      if lowerStr nm ∈ seen || (pySplitWs nm).length < 2 then fbGo rest seen acc
      else
        let e := headingEntry h nm
        let acc' := if e.description.isEmpty then acc else e :: acc
        if MAX_ITEMS ≤ acc'.length then acc'.reverse
        else fbGo rest (lowerStr nm :: seen) acc'

/-- `extract_by_headings(soup)` over the document's heading projection. -/
def extract_by_headings (headings : List HNode) : List Entry :=
  fbGo headings [] []

/-! ### The whole of `extract_article_entries` -/

/-- The BeautifulSoup document, projected to what the code reads:
`hasMain` is whether `soup.find('main') or soup.find('article') or
soup.find('body')` is truthy (with `html.parser`, a document need not have
a `body`); `blocks` are the `get_text("\n", strip=True)` results of the
`p`/`div`/`section`/`li` elements of the content region in document order;
`linkElems` is the `['h2','h3','h4','a']` projection for link resolution;
`headings` is the `['h2','h3','h4']` projection of the whole soup for the
fallback extractor. -/
structure Doc where
  hasMain : Bool
  blocks : List (List Char)
  linkElems : List PElem
  headings : List HNode
deriving DecidableEq, Repr

/-- Lines 60-67: keep blocks longer than 20 characters and join them with
newlines into the text stream. -/
def fullTextOf (blocks : List (List Char)) : List Char :=
  joinSep '\n' (blocks.filter (fun t => 20 < t.length))

/-- `extract_article_entries(html)` (lines 46-157): empty when no content
region exists; otherwise the primary pass, delegating to
`extract_by_headings` when it produced nothing, truncated to `MAX_ITEMS`. -/
def extract_article_entries (doc : Doc) : List Entry :=
  if !doc.hasMain then []
  else
    let es := extractEntriesFromText (fullTextOf doc.blocks) doc.linkElems
    (if es.isEmpty then extract_by_headings doc.headings else es).take MAX_ITEMS

/-! ### Backtracking matchers for `PHONE_RE` and `POSTCODE_RE` (lines 249-250)

A matcher returns every (consumed, rest) split in the backtracking
priority order of Python `re`; the head of the list at the leftmost
succeeding position is the match. -/

/-- Matcher type: all alternatives at a position, highest priority first. -/
def RM : Type := List Char → List (List Char × List Char)

/-- A literal. -/
def mLit (p : List Char) : RM := fun s =>
  if p.isPrefixOf s then [(p, s.drop p.length)] else []

/-- A single character of a class. -/
def mChr (f : Char → Bool) : RM := fun s =>
  match s with
  | c :: r => if f c then [([c], r)] else []
  | [] => []

/-- Sequencing. -/
def mSeq (a b : RM) : RM := fun s =>
  (a s).flatMap (fun pr => (b pr.2).map (fun qr => (pr.1 ++ qr.1, qr.2)))

/-- Prioritized alternation. -/
def mAlt (a b : RM) : RM := fun s => a s ++ b s

/-- Greedy `X?` for a character class. -/
def mOptChr (f : Char → Bool) : RM := fun s =>
  match s with
  | c :: r => if f c then [([c], r), ([], s)] else [([], s)]
  | [] => [([], s)]

/-- Greedy `X{n,}` for a character class: longest run first, down to `n`. -/
def mRepGE (f : Char → Bool) (n : Nat) : RM := fun s =>
  let run := (s.takeWhile f).length
  if run < n then []
  else (List.range (run - n + 1)).map (fun i => (s.take (run - i), s.drop (run - i)))

/-- Greedy `X{lo,hi}` for a character class. -/
def mRepRange (f : Char → Bool) (lo hi : Nat) : RM := fun s =>
  let run := (s.takeWhile f).length
  let top := min hi run
  if top < lo then []
  else (List.range (top - lo + 1)).map (fun i => (s.take (top - i), s.drop (top - i)))

/-- The `[\d\s\-]` class of `PHONE_RE`. -/
def isPhoneCls (c : Char) : Bool := c.isDigit || isPySpace c || c = '-'

/-- The `[\s\-]` separator class. -/
def isSepCls (c : Char) : Bool := isPySpace c || c = '-'

/-- `PHONE_RE = (\+44\s?\d[\d\s\-]{7,}\d|0\d{2,4}[\s\-]?\d{3,4}[\s\-]?\d{3,4})`. -/
def phoneRe : RM :=
  mAlt
    (mSeq (mLit "+44".data)
      (mSeq (mOptChr isPySpace)
        (mSeq (mChr Char.isDigit) (mSeq (mRepGE isPhoneCls 7) (mChr Char.isDigit)))))
    (mSeq (mLit "0".data)
      (mSeq (mRepRange Char.isDigit 2 4)
        (mSeq (mOptChr isSepCls)
          (mSeq (mRepRange Char.isDigit 3 4)
            (mSeq (mOptChr isSepCls) (mRepRange Char.isDigit 3 4))))))

/-- ASCII letter under `re.IGNORECASE` for `[A-Z]`. -/
def isLetterCI (c : Char) : Bool := c.isAlpha

/-- `POSTCODE_RE = [A-Z]{1,2}\d{1,2}[A-Z]?\s*\d[A-Z]{2}` with `IGNORECASE`. -/
def postcodeRe : RM :=
  mSeq (mRepRange isLetterCI 1 2)
    (mSeq (mRepRange Char.isDigit 1 2)
      (mSeq (mOptChr isLetterCI)
        (mSeq (mRepGE isPySpace 0)
          (mSeq (mChr Char.isDigit) (mRepRange isLetterCI 2 2)))))

/-- `re.search`: `group(0)` of the leftmost match. -/
def searchM (m : RM) : List Char → Option (List Char)
  | [] => ((m []).head?).map Prod.fst
  | c :: rest =>
    match (m (c :: rest)).head? with
    | some pr => some pr.1
    | none => searchM m rest

/-- `re.search(...).start()` of the leftmost match. -/
def searchIdxAux (m : RM) : List Char → Nat → Option Nat
  | [], i => if (m []).isEmpty then none else some i
  | c :: rest, i => if (m (c :: rest)).isEmpty then searchIdxAux m rest (i + 1) else some i

/-- See `searchIdxAux`. -/
def searchIdx (m : RM) (s : List Char) : Option Nat := searchIdxAux m s 0

/-! ### Venue detail enricher (`scrape_venue_info`, lines 252-298) -/

/-- The `out` dict (spec: VenueDetail). -/
structure VenueDetail where
  phone : List Char
  website : List Char
  address : List Char
deriving DecidableEq, Repr

/-- The secondary page, projected to what the enricher reads:
`telHref` is the href of the first truthy `a[href^="tel:"]`;
`nofollowA`, `blankA`, `externalA` are the three website selectors' results
(outer `Option`: a truthy anchor; inner: its `href`); `addrTag` the text of
a truthy `address` element; `text` is `soup.get_text(" ", strip=True)`. -/
structure Page where
  telHref : Option (List Char)
  nofollowA : Option (Option (List Char))
  blankA : Option (Option (List Char))
  externalA : Option (Option (List Char))
  addrTag : Option (List Char)
  text : List Char
deriving DecidableEq, Repr

/-- The website selector loop (lines 268-274). -/
def pickWebsite : List (Option (Option (List Char))) → List Char
  | [] => []
  | a :: rest =>
    match a with
    | some hrefO =>
      if truthyO hrefO then
        if !containsSub "timeout.com".data (getO hrefO) &&
           "http".data.isPrefixOf (getO hrefO) then getO hrefO
        else pickWebsite rest
      else pickWebsite rest
    | none => pickWebsite rest

/-- `text[max(0, idx-80):min(len(text), idx+80)]`. -/
def sliceAround (text : List Char) (idx : Nat) : List Char :=
  (text.drop (idx - 80)).take (min text.length (idx + 80) - (idx - 80))

/-- The parse of a successfully fetched page (lines 260-293). -/
def parseVenuePage (p : Page) : VenueDetail :=
  let phone :=
    if truthyO p.telHref then pyStrip (replaceSub "tel:".data (getO p.telHref)) else []
  let website := pickWebsite [p.nofollowA, p.blankA, p.externalA]
  let address :=
    match p.addrTag with
    | some t => t
    | none =>
      match searchIdx postcodeRe p.text with
      | some idx => pyStrip (sliceAround p.text idx)
      | none => []
  let phone :=
    if phone.isEmpty then
      match searchM phoneRe p.text with
      | some g => pyStrip g
      | none => []
    else phone
  ⟨phone, website, address⟩

/-- `scrape_venue_info(url)`.  `loadPage` stands for the fallible
`fetch(url)` plus `BeautifulSoup` construction inside the `try`; any
exception there reaches the `except` before a field is assigned, so the
function totalizes every failure to the all-empty dict and never raises. -/
def scrape_venue_info (loadPage : List Char → Except (List Char) Page)
    (url : List Char) : VenueDetail :=
  if url.isEmpty then ⟨[], [], []⟩
  else
    match loadPage url with
    | .error _ => ⟨[], [], []⟩
    | .ok p => parseVenuePage p

/-! ### Resilient fetcher (`fetch`, lines 31-44) -/

/-- The observable outcome of one `fetch` call: the returned text or the
re-raised exception (`none` models `raise None` when `retries = 0`), the
number of attempts made, and the computed backoff waits (jitter aside,
`wait = backoff ** attempt`, modelled over `ℚ`). -/
structure FetchTrace (E A : Type) where
  result : Except (Option E) A
  attempts : Nat
  waits : List ℚ
deriving Repr

/-- Is an `Except` a success? -/
def isOkB {E A : Type} : Except E A → Bool
  | .ok _ => true
  | .error _ => false

/-- The exception of attempt `i`, if it failed. -/
def errAt {E A : Type} (oracle : Nat → Except E A) (i : Nat) : Option E :=
  match oracle i with
  | .error e => some e
  | .ok _ => none

/-- The retry loop: `n` attempts remain, `made` were made, `last` is the
last exception. -/
def fetchAux {E A : Type} (oracle : Nat → Except E A) (backoff : ℚ) :
    Nat → Nat → Option E → List ℚ → FetchTrace E A
  | 0, made, last, ws => ⟨.error last, made, ws.reverse⟩
  | n + 1, made, _last, ws =>
    match oracle (made + 1) with
    | .ok a => ⟨.ok a, made + 1, ws.reverse⟩
    | .error e => fetchAux oracle backoff n (made + 1) (some e) (backoff ^ (made + 1) :: ws)

/-- `fetch(url, retries, backoff, timeout)` with the per-attempt transport
outcome abstracted as `oracle`. -/
def fetch {E A : Type} (oracle : Nat → Except E A) (retries : Nat) (backoff : ℚ) :
    FetchTrace E A :=
  fetchAux oracle backoff retries 0 none []

/-! ### Orchestrator row assembly (`main`, lines 327-357) -/

/-- The final output row. -/
structure Row where
  name : List Char
  description : List Char
  address : List Char
  phone : List Char
  website : List Char
  opening_hours : List Char
  source_link : List Char
deriving DecidableEq, Repr

/-- The per-entry body of `main`'s loop, with `venue` standing for
`scrape_venue_info(e['source_link'])`: contact fields come from enrichment
only when a source link exists, and the enriched address only fills an
empty candidate address. -/
def assembleRow (e : Entry) (venue : VenueDetail) : Row :=
  if e.source_link.isEmpty then
    ⟨e.name, e.description, e.address, [], [], e.opening_hours, e.source_link⟩
  else
    ⟨e.name, e.description, if e.address.isEmpty then venue.address else e.address,
      venue.phone, venue.website, e.opening_hours, e.source_link⟩

/-! ### Href inventories (for the link-resolution invariants) -/

/-- Contents of an optional href. -/
def optL : Option (List Char) → List (List Char)
  | some h => [h]
  | none => []

/-- Contents of an optional anchor's optional href. -/
def ooL : Option (Option (List Char)) → List (List Char)
  | some (some h) => [h]
  | _ => []

/-- Every href a `PElem` can contribute. -/
def pelemHrefs (e : PElem) : List (List Char) := optL e.href ++ ooL e.innerA ++ ooL e.nextA

/-- Every href an `HNode` can contribute. -/
def hnodeHrefs (h : HNode) : List (List Char) := ooL h.innerA ++ ooL h.nextA

/-- Every href attribute occurring in a document's projections. -/
def docHrefs (doc : Doc) : List (List Char) :=
  (doc.linkElems.map pelemHrefs).flatten ++ (doc.headings.map hnodeHrefs).flatten

/-- A relative reference: no scheme of its own and not protocol-relative. -/
def isRelativeRef (h : List Char) : Bool :=
  !hasSchemePfx h && !"//".data.isPrefixOf h

/-! ### Concrete inputs for the claims -/

/-- Scenario A's article text stream. -/
def scenarioAText : List Char :=
  "1. Bluebird Café\nWhat is it?\nA cosy nook.\nAddress: 12 High St\nOpening hours: 9-5 daily\n".data

/-- A text stream with exactly one marker-delimited, valid segment. -/
def w2text : List Char :=
  "intro paragraph before any marker\nWhat is it?\nA fine cafe spot.\nAddress: 1 Low St\n".data

/-- A minimal document (for the `MAX_ITEMS` bounds). -/
def w2doc : Doc := ⟨true, [], [], []⟩

/-- A heading whose sibling text is long enough to become a description. -/
def w3h : HNode :=
  ⟨"3. Gallery Cafe".data,
    [SibNode.tag "p".data true
      "A bright corner room full of paintings, pastries and very good coffee.".data],
    none, none⟩

/-- A document with a content region, no marker in its text, and one
productive heading. -/
def w3doc : Doc :=
  ⟨true, ["this long paragraph does not mention the magic question".data], [], [w3h]⟩

/-- The same document without any content region (`html.parser` documents
need not contain `main`, `article` or `body`). -/
def c3doc : Doc :=
  ⟨false, ["this long paragraph does not mention the magic question".data], [], [w3h]⟩

/-- An anchor whose text fuzzily matches a candidate name and whose href is
an absolute URL on a foreign host. -/
def c6anchor : PElem := ⟨true, "Evil".data, some "https://evil.com/x".data, none, none⟩

/-- A document whose only candidate resolves its link through `c6anchor`. -/
def c6doc : Doc :=
  ⟨true, ["What is it?\nEvil Cafe is lovely here\nAddress: 1 St".data], [c6anchor], []⟩

/-- Like `c6doc`, but the matching anchor's href is site-relative. -/
def w6doc : Doc :=
  ⟨true, ["What is it?\nGood Cafe is lovely here\nAddress: 1 St".data],
    [⟨true, "Good".data, some "/venue/good-cafe".data, none, none⟩], []⟩

/-- The candidate `w6doc` produces. -/
def w6entry : Entry := (extract_article_entries w6doc).headD ⟨[], [], [], [], []⟩

/-- A candidate with a non-empty address and a source link. -/
def w7entry : Entry :=
  ⟨"Corner Cafe".data, "calm and quiet".data, "12 High St".data, "9-5".data, "/venue/corner".data⟩

/-- An enrichment result that would, absent the guard, overwrite fields. -/
def w7venue : VenueDetail := ⟨"020 7946 0958".data, "https://corner.example".data, "99 Other Rd".data⟩

/-- A page loader that always fails. -/
def w8load : List Char → Except (List Char) Page := fun _ => .error "boom".data

/-- A transport oracle that always fails. -/
def w9oracle : Nat → Except (List Char) (List Char) := fun _ => .error "connection reset".data

/-- A heading list whose single heading yields a candidate. -/
def w10hs : List HNode :=
  [⟨"Corner Cafe".data,
     [SibNode.tag "p".data true
       "A quiet two-room cafe with patient staff and strong filter coffee.".data],
     none, some (some "/london/venue/corner-cafe".data)⟩]

/-- The candidate `w10hs` produces. -/
def w10entry : Entry := (extract_by_headings w10hs).headD ⟨[], [], [], [], []⟩

/-- The waits a failing run appends from attempt `made + 1` on:
`backoff ^ (made+1), backoff ^ (made+2), ...` (`n` of them). -/
def expWaits (b : ℚ) : Nat → Nat → List ℚ
  | 0, _ => []
  | n + 1, made => b ^ (made + 1) :: expWaits b n (made + 1)

/-! ## Supporting lemmas -/

lemma containsSub_nil (s : List Char) : containsSub [] s = true := by
  induction s with
  | nil => rfl
  | cons c rest ih => simp [containsSub, ih]

lemma isPfxOf_eq_true {p s : List Char} (h : p.isPrefixOf s = true) :
    ∃ t, p ++ t = s := by
  induction p generalizing s with
  | nil => exact ⟨s, rfl⟩
  | cons c p ih =>
    cases s with
    | nil => simp [List.isPrefixOf] at h
    | cons d s =>
      simp only [List.isPrefixOf, Bool.and_eq_true, beq_iff_eq] at h
      obtain ⟨t, ht⟩ := ih h.2
      exact ⟨t, by rw [h.1, List.cons_append, ht]⟩

lemma isPfxOf_of_append (p t : List Char) : p.isPrefixOf (p ++ t) = true := by
  induction p with
  | nil => simp [List.isPrefixOf]
  | cons c p ih => simp [List.isPrefixOf, ih]

lemma pfx_append {p s : List Char} (t : List Char) (h : p.isPrefixOf s = true) :
    p.isPrefixOf (s ++ t) = true := by
  obtain ⟨u, hu⟩ := isPfxOf_eq_true h
  rw [← hu, List.append_assoc]
  exact isPfxOf_of_append p (u ++ t)

lemma containsSub_append_left {p s : List Char} (x : List Char)
    (h : containsSub p s = true) : containsSub p (x ++ s) = true := by
  induction x with
  | nil => simpa using h
  | cons c x ih => simp [containsSub, ih]

lemma containsSub_append_right {p s : List Char} (y : List Char)
    (h : containsSub p s = true) : containsSub p (s ++ y) = true := by
  induction s with
  | nil =>
    simp only [containsSub, List.isEmpty_iff] at h
    subst h
    exact containsSub_nil y
  | cons c s ih =>
    simp only [containsSub, Bool.or_eq_true] at h
    rcases h with h | h
    · have h2 : p.isPrefixOf (c :: (s ++ y)) = true := by
        have h3 := pfx_append y h
        rwa [List.cons_append] at h3
      rw [List.cons_append]
      simp [containsSub, h2]
    · rw [List.cons_append]
      simp [containsSub, ih h]

lemma splitBeforeGo_flatten (pat : List Char) :
    ∀ s acc, (splitBeforeGo pat s acc).flatten = acc.reverse ++ s := by
  intro s
  induction s with
  | nil => intro acc; simp [splitBeforeGo]
  | cons c rest ih =>
    intro acc
    by_cases h : pat.isPrefixOf (c :: rest) = true
    · simp [splitBeforeGo, h, ih]
    · simp only [splitBeforeGo, h]
      simp [ih, List.reverse_cons]

lemma splitBefore_flatten (pat s : List Char) : (splitBefore pat s).flatten = s := by
  simpa using splitBeforeGo_flatten pat s []

lemma containsSub_of_mem_splitBefore {pat s seg : List Char}
    (h : seg ∈ splitBefore pat s) (hc : containsSub pat seg = true) :
    containsSub pat s = true := by
  obtain ⟨l1, l2, hl⟩ := List.append_of_mem h
  have hs : s = l1.flatten ++ (seg ++ l2.flatten) := by
    conv_lhs => rw [← splitBefore_flatten pat s]
    rw [hl]
    simp
  rw [hs]
  exact containsSub_append_left _ (containsSub_append_right _ hc)

lemma primaryGo_eq (elems : List PElem) :
    ∀ (segs : List (List Char)) (acc : List Entry), acc.length < MAX_ITEMS →
      primaryGo elems segs acc =
        acc.reverse ++ ((segs.filter validSeg).map (entryLinked elems)).take (MAX_ITEMS - acc.length) := by
  intro segs
  induction segs with
  | nil => intro acc _; simp [primaryGo]
  | cons seg rest ih =>
    intro acc hacc
    cases hm : containsSub MARKER seg with
    | false =>
      have hval : validSeg seg = false := by simp [validSeg, hm]
      simp only [primaryGo, hm, Bool.not_false, if_pos rfl]
      rw [ih _ hacc]
      simp [List.filter_cons, hval]
    | true =>
      have hff : ¬(false = true) := by simp
      cases hv : (!(parseSegment seg).name.isEmpty && !(parseSegment seg).description.isEmpty) with
      | false =>
        have hval : validSeg seg = false := by
          simp only [validSeg, hm, Bool.true_and]
          exact hv
        simp only [primaryGo, hm, Bool.not_true, hv, if_neg hff]
        rw [ih _ hacc]
        simp [List.filter_cons, hval]
      | true =>
        have hval : validSeg seg = true := by
          simp only [validSeg, hm, Bool.true_and]
          exact hv
        have htt : (true = true) := rfl
        by_cases hstop : MAX_ITEMS ≤ (entryLinked elems seg :: acc).length
        · have h1 : MAX_ITEMS - acc.length = 1 := by
            simp only [List.length_cons] at hstop; omega
          simp only [primaryGo, hm, Bool.not_true, hv, if_neg hff, if_pos htt,
            if_pos hstop]
          simp [List.filter_cons, hval, h1]
        · have hlt : (entryLinked elems seg :: acc).length < MAX_ITEMS := by omega
          obtain ⟨k, hk⟩ : ∃ k, MAX_ITEMS - acc.length = k + 1 :=
            ⟨MAX_ITEMS - acc.length - 1, by omega⟩
          have hk' : MAX_ITEMS - (acc.length + 1) = k := by omega
          simp only [primaryGo, hm, Bool.not_true, hv, if_neg hff, if_pos htt,
            if_neg hstop]
          rw [ih _ hlt]
          simp [List.filter_cons, hval, hk, hk', List.reverse_cons]

lemma extractEntriesFromText_eq (full_text : List Char) (elems : List PElem) :
    extractEntriesFromText full_text elems =
      (((splitBefore MARKER full_text).filter validSeg).map (entryLinked elems)).take MAX_ITEMS := by
  have h := primaryGo_eq elems (splitBefore MARKER full_text) [] (by simp [MAX_ITEMS])
  simpa [extractEntriesFromText] using h

lemma primary_length_le (full_text : List Char) (elems : List PElem) :
    (extractEntriesFromText full_text elems).length ≤ MAX_ITEMS := by
  rw [extractEntriesFromText_eq]
  exact List.length_take_le _ _

lemma fbGo_length_le :
    ∀ (hs : List HNode) (seen : List (List Char)) (acc : List Entry),
      acc.length < MAX_ITEMS → (fbGo hs seen acc).length ≤ MAX_ITEMS := by
  intro hs
  induction hs with
  | nil => intro seen acc hacc; simp only [fbGo]; simp; omega
  | cons h rest ih =>
    intro seen acc hacc
    simp only [fbGo]
    split
    · exact ih _ _ hacc
    · split
      · exact ih _ _ hacc
      · split
        · exact ih _ _ hacc
        · split
          · split
            · simp only [List.length_reverse]
              omega
            · exact ih _ _ hacc
          · split
            · simp only [List.length_reverse, List.length_cons]
              omega
            · rename_i hstop
              apply ih
              simp only [List.length_cons] at hstop ⊢
              omega

lemma extract_by_headings_length_le (hs : List HNode) :
    (extract_by_headings hs).length ≤ MAX_ITEMS := by
  exact fbGo_length_le hs [] [] (by simp [MAX_ITEMS])

lemma extract_article_entries_length_le (doc : Doc) :
    (extract_article_entries doc).length ≤ MAX_ITEMS := by
  unfold extract_article_entries
  split
  · simp [MAX_ITEMS]
  · exact List.length_take_le _ _

/-! ## The claims -/

/-- C1 (code bug): on Scenario A's text stream the primary extractor returns
exactly one candidate with the claimed description, address and opening
hours, but its `name` is `A cosy nook.` rather than `Bluebird Café`: the
lookahead split places the pre-marker name line into the previous,
discarded piece, so the scan of the segment's first lines lands on the
description line, contradicting the source's own comment that the name
appears before `What is it?`. -/
theorem c1_scenarioA_eval :
    extractEntriesFromText scenarioAText [] =
      [⟨"A cosy nook.".data, "A cosy nook.".data, "12 High St".data, "9-5 daily".data, []⟩] := by
  rfl

/-- C2: an input text whose `N` marker-delimited segments all yield a valid
name and description produces exactly `min N MAX_ITEMS` candidates, each
with non-empty name and description, in document order (the take of the
per-segment entries in segment order); and neither extractor, nor their
combination, ever produces more than `MAX_ITEMS` candidates. -/
theorem c2_counts (full_text : List Char) (elems : List PElem) (doc : Doc) (N : Nat)
    (hN : N = ((splitBefore MARKER full_text).filter (fun s => containsSub MARKER s)).length)
    (hall : ∀ seg ∈ splitBefore MARKER full_text,
      containsSub MARKER seg = true → validSeg seg = true) :
    (extractEntriesFromText full_text elems).length = min N MAX_ITEMS ∧
    (∀ e ∈ extractEntriesFromText full_text elems,
      e.name ≠ [] ∧ e.description ≠ []) ∧
    extractEntriesFromText full_text elems =
      (((splitBefore MARKER full_text).filter validSeg).map (entryLinked elems)).take MAX_ITEMS ∧
    (extractEntriesFromText full_text elems).length ≤ MAX_ITEMS ∧
    (extract_by_headings doc.headings).length ≤ MAX_ITEMS ∧
    (extract_article_entries doc).length ≤ MAX_ITEMS := by
  have hEq := extractEntriesFromText_eq full_text elems
  have hfe : (splitBefore MARKER full_text).filter validSeg =
      (splitBefore MARKER full_text).filter (fun s => containsSub MARKER s) := by
    apply List.filter_congr
    intro x hx
    cases hc : containsSub MARKER x with
    | true => simp [hall x hx hc, hc]
    | false => simp [validSeg, hc]
  refine ⟨?_, ?_, hEq, primary_length_le _ _, extract_by_headings_length_le _,
    extract_article_entries_length_le _⟩
  · rw [hEq, List.length_take, List.length_map, hfe, ← hN, Nat.min_comm]
  · intro e he
    rw [hEq] at he
    obtain ⟨seg, hseg, rfl⟩ := List.mem_map.mp (List.mem_of_mem_take he)
    have hv : validSeg seg = true := (List.mem_filter.mp hseg).2
    simp only [validSeg, Bool.and_eq_true, Bool.not_eq_true'] at hv
    constructor
    · simpa [entryLinked, List.isEmpty_iff] using hv.1.2
    · simpa [entryLinked, List.isEmpty_iff] using hv.2

/-- C2 witness: a text with one valid marker segment yields one candidate. -/
theorem c2_counts_witness :
    (extractEntriesFromText w2text []).length = min 1 MAX_ITEMS ∧
    (∀ e ∈ extractEntriesFromText w2text [],
      e.name ≠ [] ∧ e.description ≠ []) ∧
    extractEntriesFromText w2text [] =
      (((splitBefore MARKER w2text).filter validSeg).map (entryLinked [])).take MAX_ITEMS ∧
    (extractEntriesFromText w2text []).length ≤ MAX_ITEMS ∧
    (extract_by_headings w2doc.headings).length ≤ MAX_ITEMS ∧
    (extract_article_entries w2doc).length ≤ MAX_ITEMS :=
  c2_counts w2text [] w2doc 1 (by decide) (by decide)

/-- C3 counterexample: a document with no content region (`html.parser`
output need not contain `main`, `article` or `body`) and no marker phrase
makes `extract_article_entries` return empty without invoking the fallback,
even though the fallback extractor would have produced a candidate. -/
theorem c3_counterexample :
    containsSub MARKER (fullTextOf c3doc.blocks) = false ∧
    extract_article_entries c3doc = [] ∧
    (extract_by_headings c3doc.headings).take MAX_ITEMS ≠ [] := by
  refine ⟨by decide, by decide, by decide⟩

/-- C3 (amended): provided the document has a content region, an input with
zero marker occurrences makes the primary pass yield zero candidates and
the result be the fallback extractor's output; and the fallback is invoked
only when the primary pass is empty (a non-empty primary pass is returned
as is).  Without a content region the function returns empty without
invoking the fallback. -/
theorem c3_fallback (doc : Doc) (hmain : doc.hasMain = true) :
    (containsSub MARKER (fullTextOf doc.blocks) = false →
      extractEntriesFromText (fullTextOf doc.blocks) doc.linkElems = [] ∧
      extract_article_entries doc = (extract_by_headings doc.headings).take MAX_ITEMS) ∧
    (extractEntriesFromText (fullTextOf doc.blocks) doc.linkElems ≠ [] →
      extract_article_entries doc = extractEntriesFromText (fullTextOf doc.blocks) doc.linkElems) := by
  constructor
  · intro hnm
    have hsegs : ∀ seg ∈ splitBefore MARKER (fullTextOf doc.blocks), validSeg seg = false := by
      intro seg hseg
      cases hc : containsSub MARKER seg with
      | false => simp [validSeg, hc]
      | true =>
        have := containsSub_of_mem_splitBefore hseg hc
        rw [hnm] at this
        exact absurd this (by simp)
    have hfil : (splitBefore MARKER (fullTextOf doc.blocks)).filter validSeg = [] := by
      simp only [List.filter_eq_nil_iff]
      intro a ha
      simp [hsegs a ha]
    have hprim : extractEntriesFromText (fullTextOf doc.blocks) doc.linkElems = [] := by
      rw [extractEntriesFromText_eq, hfil]
      simp
    refine ⟨hprim, ?_⟩
    simp [extract_article_entries, hmain, hprim]
  · intro hne
    have hle := primary_length_le (fullTextOf doc.blocks) doc.linkElems
    have hni : (extractEntriesFromText (fullTextOf doc.blocks) doc.linkElems).isEmpty = false := by
      simpa [List.isEmpty_iff] using hne
    simp [extract_article_entries, hmain, hni, List.take_of_length_le hle]

/-- C3 witness: on a markerless document with a content region, the primary
pass is empty and the fallback's output is returned. -/
theorem c3_fallback_witness :
    extractEntriesFromText (fullTextOf w3doc.blocks) w3doc.linkElems = [] ∧
    extract_article_entries w3doc = (extract_by_headings w3doc.headings).take MAX_ITEMS :=
  (c3_fallback w3doc rfl).1 (by decide)

lemma fbGo_names_nodup :
    ∀ (hs : List HNode) (seen : List (List Char)) (acc : List Entry),
      (acc.map (fun e => lowerStr e.name)).Nodup →
      (∀ e ∈ acc, lowerStr e.name ∈ seen) →
      ((fbGo hs seen acc).map (fun e => lowerStr e.name)).Nodup := by
  intro hs
  induction hs with
  | nil =>
    intro seen acc h1 _
    simp only [fbGo, List.map_reverse, List.nodup_reverse]
    exact h1
  | cons h rest ih =>
    intro seen acc h1 h2
    simp only [fbGo]
    split
    · exact ih _ _ h1 h2
    · split
      · exact ih _ _ h1 h2
      · split
        · exact ih _ _ h1 h2
        · rename_i hkeep
          have hnotseen : lowerStr (pyStrip (stripOrdinal h.text)) ∉ seen := by
            intro hmem
            simp [hmem] at hkeep
          split
          · split
            · simp only [List.map_reverse, List.nodup_reverse]
              exact h1
            · exact ih _ _ h1 (fun e he => List.mem_cons_of_mem _ (h2 e he))
          · have hfresh : lowerStr (pyStrip (stripOrdinal h.text)) ∉
                acc.map (fun e => lowerStr e.name) := by
              intro hmem
              obtain ⟨e, he, heq⟩ := List.mem_map.mp hmem
              exact hnotseen (heq ▸ h2 e he)
            have h1' : ((headingEntry h (pyStrip (stripOrdinal h.text)) :: acc).map
                (fun e => lowerStr e.name)).Nodup := by
              simp only [List.map_cons, List.nodup_cons]
              exact ⟨by simpa [headingEntry] using hfresh, h1⟩
            split
            · simp only [List.map_reverse, List.nodup_reverse]
              exact h1'
            · apply ih _ _ h1'
              intro e he
              rcases List.mem_cons.mp he with rfl | he'
              · simp [headingEntry]
              · exact List.mem_cons_of_mem _ (h2 e he')

/-- C4: the fallback extractor never returns two candidates with the same
case-insensitive name: the list of lower-cased candidate names is
duplicate-free for every document. -/
theorem c4_fallback_nodup (hs : List HNode) :
    ((extract_by_headings hs).map (fun e => lowerStr e.name)).Nodup :=
  fbGo_names_nodup hs [] [] (by simp) (by simp)

lemma fbGo_name_words :
    ∀ (hs : List HNode) (seen : List (List Char)) (acc : List Entry),
      (∀ e ∈ acc, 2 ≤ (pySplitWs e.name).length) →
      ∀ e ∈ fbGo hs seen acc, 2 ≤ (pySplitWs e.name).length := by
  intro hs
  induction hs with
  | nil =>
    intro seen acc h1 e he
    simp only [fbGo, List.mem_reverse] at he
    exact h1 e he
  | cons h rest ih =>
    intro seen acc h1 e he
    simp only [fbGo] at he
    split at he
    · exact ih _ _ h1 e he
    · split at he
      · exact ih _ _ h1 e he
      · split at he
        · exact ih _ _ h1 e he
        · rename_i hkeep
          have hwords : 2 ≤ (pySplitWs (pyStrip (stripOrdinal h.text))).length := by
            simp only [Bool.or_eq_true, decide_eq_true_eq, not_or] at hkeep
            omega
          have h1' : ∀ x ∈ headingEntry h (pyStrip (stripOrdinal h.text)) :: acc,
              2 ≤ (pySplitWs x.name).length := by
            intro x hx
            rcases List.mem_cons.mp hx with rfl | hx'
            · simpa [headingEntry] using hwords
            · exact h1 x hx'
          split at he
          · split at he
            · rw [List.mem_reverse] at he
              exact h1 e he
            · exact ih _ _ h1 e he
          · split at he
            · rw [List.mem_reverse] at he
              exact h1' e he
            · exact ih _ _ h1' e he

/-- C10: every candidate the fallback extractor produces has at least two
whitespace-separated words in its (ordinal-stripped) name; a single-word
heading can never yield a candidate on the fallback path. -/
theorem c10_two_word_names (hs : List HNode) (e : Entry)
    (he : e ∈ extract_by_headings hs) : 2 ≤ (pySplitWs e.name).length :=
  fbGo_name_words hs [] [] (by simp) e he

/-- C10 witness: the two-word heading of `w10hs` yields a candidate with a
two-word name. -/
theorem c10_two_word_names_witness : 2 ≤ (pySplitWs w10entry.name).length :=
  c10_two_word_names w10hs w10entry (by decide)

/-- C5 counterexample: the ordinal strip is not idempotent on every string:
stripping `1. 2. Cafe` once leaves `2. Cafe`, and a second application
strips again. -/
theorem c5_counterexample :
    stripOrdinal (stripOrdinal "1. 2. Cafe".data) ≠ stripOrdinal "1. 2. Cafe".data := by
  decide

lemma stripOrdinal_id_of_no_pfx {s : List Char} (h : hasOrdPfx s = false) :
    stripOrdinal s = s := by
  unfold stripOrdinal
  cases hd : (s.takeWhile Char.isDigit).isEmpty with
  | true => simp [hd]
  | false =>
    have hne : ¬((s.takeWhile Char.isDigit).isEmpty = true) := by simp [hd]
    rw [if_neg hne]
    split
    · rename_i rest heq
      exfalso
      unfold hasOrdPfx at h
      rw [heq] at h
      simp [hd] at h
    · rfl

/-- C5 (amended): the ordinal strip is idempotent exactly on inputs whose
once-stripped form does not itself begin with a `digits-then-period`
prefix; on such inputs a second application is the identity (in general it
can strip a further ordinal, as `1. 2. Cafe` shows). -/
theorem c5_strip_idempotent (s : List Char)
    (h : hasOrdPfx (stripOrdinal s) = false) :
    stripOrdinal (stripOrdinal s) = stripOrdinal s :=
  stripOrdinal_id_of_no_pfx h

/-- C5 witness: a single-ordinal name strips to a fixpoint. -/
theorem c5_strip_idempotent_witness :
    stripOrdinal (stripOrdinal "7. Nice Cafe".data) = stripOrdinal "7. Nice Cafe".data :=
  c5_strip_idempotent ("7. Nice Cafe".data) (by decide)

lemma truthyO_getO {o : Option (List Char)} (h : truthyO o = true) : getO o ≠ [] := by
  cases o with
  | none => simp [truthyO] at h
  | some l =>
    cases l with
    | nil => simp [truthyO] at h
    | cons c t => simp [getO]

lemma truthyO_mem_optL {o : Option (List Char)} (h : truthyO o = true) : getO o ∈ optL o := by
  cases o with
  | none => simp [truthyO] at h
  | some l => simp [getO, optL]

lemma truthyO_mem_ooL {o : Option (List Char)} (h : truthyO o = true) :
    getO o ∈ ooL (some o) := by
  cases o with
  | none => simp [truthyO] at h
  | some l => simp [getO, ooL]

lemma resolveLink_cases :
    ∀ (elems : List PElem) (nm : List Char),
      resolveLink elems nm = [] ∨
        ∃ x, x ∈ (elems.map pelemHrefs).flatten ∧ x ≠ [] ∧
          resolveLink elems nm = urljoinURL x := by
  intro elems
  induction elems with
  | nil => intro nm; left; rfl
  | cons e rest ih =>
    intro nm
    have lift : ∀ {x : List Char}, x ∈ (rest.map pelemHrefs).flatten →
        x ∈ ((e :: rest).map pelemHrefs).flatten := by
      intro x hx
      simp only [List.map_cons, List.flatten_cons, List.mem_append]
      right; exact hx
    have hrec : resolveLink rest nm = [] ∨
        ∃ x, x ∈ ((e :: rest).map pelemHrefs).flatten ∧ x ≠ [] ∧
          resolveLink rest nm = urljoinURL x := by
      rcases ih nm with h0 | ⟨x, hx, hxe, heq⟩
      · left; exact h0
      · right; exact ⟨x, lift hx, hxe, heq⟩
    simp only [resolveLink]
    split
    · split
      · rename_i hcond
        right
        refine ⟨getO e.href, ?_, truthyO_getO (Bool.and_eq_true .. ▸ hcond).2, rfl⟩
        simp only [List.map_cons, List.flatten_cons, List.mem_append]
        left
        simp only [pelemHrefs, List.mem_append]
        left; left
        exact truthyO_mem_optL (Bool.and_eq_true .. ▸ hcond).2
      · split
        · rename_i hrefO horelse
          split
          · split
            · rename_i htr _
              right
              refine ⟨getO hrefO, ?_, truthyO_getO htr, rfl⟩
              simp only [List.map_cons, List.flatten_cons, List.mem_append]
              left
              simp only [pelemHrefs, List.mem_append]
              cases hin : e.innerA with
              | some y =>
                have hy : y = hrefO := by
                  simpa [Option.orElse, hin] using horelse
                subst hy
                left; right
                exact truthyO_mem_ooL htr
              | none =>
                have hnx : e.nextA = some hrefO := by
                  simpa [Option.orElse, hin] using horelse
                right
                rw [hnx]
                exact truthyO_mem_ooL htr
            · exact hrec
          · exact hrec
        · exact hrec
    · exact hrec

lemma headingLink_cases (h : HNode) :
    headingLink h = [] ∨
      ∃ x, x ∈ hnodeHrefs h ∧ x ≠ [] ∧ headingLink h = urljoinURL x := by
  unfold headingLink
  split
  · rename_i hrefO horelse
    split
    · rename_i htr
      split
      · right
        refine ⟨getO hrefO, ?_, truthyO_getO htr, rfl⟩
        simp only [hnodeHrefs, List.mem_append]
        cases hin : h.innerA with
        | some y =>
          have hy : y = hrefO := by
            simpa [Option.orElse, hin] using horelse
          subst hy
          left
          exact truthyO_mem_ooL htr
        | none =>
          have hnx : h.nextA = some hrefO := by
            simpa [Option.orElse, hin] using horelse
          right
          rw [hnx]
          exact truthyO_mem_ooL htr
      · left; rfl
    · left; rfl
  · left; rfl

lemma fbGo_link :
    ∀ (hs : List HNode) (seen : List (List Char)) (acc : List Entry) (e : Entry),
      e ∈ fbGo hs seen acc → e ∈ acc ∨ e.source_link = [] ∨
        ∃ x, x ∈ (hs.map hnodeHrefs).flatten ∧ x ≠ [] ∧ e.source_link = urljoinURL x := by
  intro hs
  induction hs with
  | nil =>
    intro seen acc e he
    simp only [fbGo, List.mem_reverse] at he
    left; exact he
  | cons h rest ih =>
    intro seen acc e he
    have lift : (e ∈ acc ∨ e.source_link = [] ∨
        ∃ x, x ∈ (rest.map hnodeHrefs).flatten ∧ x ≠ [] ∧ e.source_link = urljoinURL x) →
        (e ∈ acc ∨ e.source_link = [] ∨
          ∃ x, x ∈ ((h :: rest).map hnodeHrefs).flatten ∧ x ≠ [] ∧
            e.source_link = urljoinURL x) := by
      rintro (h0 | h0 | ⟨x, hx, hxe, heq⟩)
      · left; exact h0
      · right; left; exact h0
      · right; right
        refine ⟨x, ?_, hxe, heq⟩
        simp only [List.map_cons, List.flatten_cons, List.mem_append]
        right; exact hx
    have hself : e = headingEntry h (pyStrip (stripOrdinal h.text)) →
        e.source_link = [] ∨
          ∃ x, x ∈ ((h :: rest).map hnodeHrefs).flatten ∧ x ≠ [] ∧
            e.source_link = urljoinURL x := by
      rintro rfl
      rcases headingLink_cases h with h0 | ⟨x, hx, hxe, heq⟩
      · left
        simpa [headingEntry] using h0
      · right
        refine ⟨x, ?_, hxe, by simpa [headingEntry] using heq⟩
        simp only [List.map_cons, List.flatten_cons, List.mem_append]
        left; exact hx
    simp only [fbGo] at he
    split at he
    · exact lift (ih _ _ e he)
    · split at he
      · exact lift (ih _ _ e he)
      · split at he
        · exact lift (ih _ _ e he)
        · split at he
          · split at he
            · rw [List.mem_reverse] at he
              left; exact he
            · exact lift (ih _ _ e he)
          · split at he
            · rw [List.mem_reverse] at he
              rcases List.mem_cons.mp he with rfl | he'
              · exact Or.inr (hself rfl)
              · left; exact he'
            · rcases ih _ _ e he with h0 | h0 | ⟨x, hx, hxe, heq⟩
              · rcases List.mem_cons.mp h0 with rfl | he'
                · exact Or.inr (hself rfl)
                · left; exact he'
              · right; left; exact h0
              · right; right
                refine ⟨x, ?_, hxe, heq⟩
                simp only [List.map_cons, List.flatten_cons, List.mem_append]
                right; exact hx

lemma primary_link (full_text : List Char) (elems : List PElem) (e : Entry)
    (he : e ∈ extractEntriesFromText full_text elems) :
    e.source_link = [] ∨
      ∃ x, x ∈ (elems.map pelemHrefs).flatten ∧ x ≠ [] ∧ e.source_link = urljoinURL x := by
  rw [extractEntriesFromText_eq] at he
  obtain ⟨seg, _, rfl⟩ := List.mem_map.mp (List.mem_of_mem_take he)
  have : (entryLinked elems seg).source_link = resolveLink elems (parseSegment seg).name := rfl
  rw [this]
  rcases resolveLink_cases elems (parseSegment seg).name with h0 | ⟨x, hx, hxe, heq⟩
  · left; exact h0
  · right; exact ⟨x, hx, hxe, heq⟩

lemma urljoin_rel {h : List Char} (h1 : hasSchemePfx h = false)
    (h2 : "//".data.isPrefixOf h = false) (h3 : h ≠ []) :
    schemeOf (urljoinURL h) = "https".data ∧
    hostOf (urljoinURL h) = "www.timeout.com".data := by
  have hne : ¬(h.isEmpty = true) := by simpa [List.isEmpty_iff] using h3
  have hb1 : ¬(hasSchemePfx h = true) := by simp [h1]
  have hb2 : ¬("//".data.isPrefixOf h = true) := by simp [h2]
  unfold urljoinURL
  rw [if_neg hne, if_neg hb1, if_neg hb2]
  split
  · rename_i hsl
    obtain ⟨t, ht⟩ := isPfxOf_eq_true hsl
    rw [← ht]
    exact ⟨rfl, rfl⟩
  · split
    · exact ⟨rfl, rfl⟩
    · split
      · exact ⟨rfl, rfl⟩
      · exact ⟨rfl, rfl⟩

/-- C6 counterexample: a candidate's `source_link` need not stay on the
article's host: the primary link resolution takes a matching anchor's
absolute href as is, so `c6doc` yields the foreign link
`https://evil.com/x`. -/
theorem c6_counterexample :
    (extract_article_entries c6doc).map (fun e => e.source_link) =
      ["https://evil.com/x".data] ∧
    "https://evil.com/x".data ≠ [] ∧
    hostOf "https://evil.com/x".data ≠ hostOf URL := by
  refine ⟨by decide, by decide, by decide⟩

/-- C6 (amended): a candidate's `source_link` is always either empty or the
href of some document anchor resolved against the article URL; when every
href in the document is a relative reference (no scheme of its own, not
protocol-relative), every non-empty resolved link carries the article
URL's scheme `https` and host `www.timeout.com`.  An href with its own
scheme keeps its own scheme and host (see the counterexample). -/
theorem c6_link_resolution (doc : Doc)
    (hrel : ∀ x ∈ docHrefs doc, isRelativeRef x = true) :
    ∀ e ∈ extract_article_entries doc,
      e.source_link = [] ∨
        (schemeOf e.source_link = "https".data ∧
         hostOf e.source_link = "www.timeout.com".data) := by
  intro e he
  have hrel' : ∀ x, x ∈ docHrefs doc → x ≠ [] →
      schemeOf (urljoinURL x) = "https".data ∧
      hostOf (urljoinURL x) = "www.timeout.com".data := by
    intro x hx hxe
    have := hrel x hx
    simp only [isRelativeRef, Bool.and_eq_true, Bool.not_eq_true'] at this
    exact urljoin_rel this.1 this.2 hxe
  unfold extract_article_entries at he
  split at he
  · simp at he
  · have he' := List.mem_of_mem_take he
    split at he'
    · rcases fbGo_link doc.headings [] [] e he' with h0 | h0 | ⟨x, hx, hxe, heq⟩
      · simp at h0
      · left; exact h0
      · right
        rw [heq]
        refine hrel' x ?_ hxe
        simp only [docHrefs, List.mem_append]
        right; exact hx
    · rcases primary_link (fullTextOf doc.blocks) doc.linkElems e he' with h0 | ⟨x, hx, hxe, heq⟩
      · left; exact h0
      · right
        rw [heq]
        refine hrel' x ?_ hxe
        simp only [docHrefs, List.mem_append]
        left; exact hx

/-- C6 witness: with a site-relative `/venue/...` href the resolved link is
on the article's scheme and host. -/
theorem c6_link_resolution_witness :
    w6entry.source_link = [] ∨
      (schemeOf w6entry.source_link = "https".data ∧
       hostOf w6entry.source_link = "www.timeout.com".data) :=
  c6_link_resolution w6doc (by decide) w6entry (by decide)

/-- C7: merging an enrichment result into the row never overwrites a
non-empty candidate address, and leaves the candidate's name, description,
opening hours and source link untouched. -/
theorem c7_merge_frame (e : Entry) (venue : VenueDetail) (h : e.address ≠ []) :
    (assembleRow e venue).address = e.address ∧
    (assembleRow e venue).name = e.name ∧
    (assembleRow e venue).description = e.description ∧
    (assembleRow e venue).opening_hours = e.opening_hours ∧
    (assembleRow e venue).source_link = e.source_link := by
  have ha : e.address.isEmpty = false := by simpa [List.isEmpty_iff] using h
  unfold assembleRow
  split
  · exact ⟨rfl, rfl, rfl, rfl, rfl⟩
  · simp [ha]

/-- C7 witness: a candidate with an address keeps it through enrichment. -/
theorem c7_merge_frame_witness :
    (assembleRow w7entry w7venue).address = w7entry.address ∧
    (assembleRow w7entry w7venue).name = w7entry.name ∧
    (assembleRow w7entry w7venue).description = w7entry.description ∧
    (assembleRow w7entry w7venue).opening_hours = w7entry.opening_hours ∧
    (assembleRow w7entry w7venue).source_link = w7entry.source_link :=
  c7_merge_frame w7entry w7venue (by decide)

/-- C8: the enricher is a total function into `VenueDetail` (exceptions
only occur inside the modelled `try`, caught to the all-empty dict): an
empty URL short-circuits to the all-empty detail without consulting the
page loader, and any load failure also yields the all-empty detail. -/
theorem c8_enricher_total (loadPage : List Char → Except (List Char) Page)
    (url : List Char) :
    scrape_venue_info loadPage [] = ⟨[], [], []⟩ ∧
    (∀ load2 : List Char → Except (List Char) Page,
      scrape_venue_info loadPage [] = scrape_venue_info load2 []) ∧
    (∀ err, loadPage url = .error err → scrape_venue_info loadPage url = ⟨[], [], []⟩) := by
  refine ⟨rfl, fun load2 => rfl, ?_⟩
  intro err herr
  unfold scrape_venue_info
  split
  · rfl
  · rw [herr]

/-- C8 witness: a failing loader yields the all-empty detail. -/
theorem c8_enricher_total_witness :
    scrape_venue_info w8load ("https://www.timeout.com/venue/x".data) = ⟨[], [], []⟩ :=
  (c8_enricher_total w8load ("https://www.timeout.com/venue/x".data)).2.2 ("boom".data) rfl

lemma expWaits_eq_range (b : ℚ) :
    ∀ n made, expWaits b n made = (List.range n).map (fun i => b ^ (made + 1 + i)) := by
  intro n
  induction n with
  | zero => intro made; rfl
  | succ m ihm =>
    intro made
    rw [List.range_succ_eq_map]
    simp only [expWaits, ihm (made + 1), List.map_cons, List.map_map, Function.comp]
    refine congrArg₂ _ (by norm_num) ?_
    apply List.map_congr_left
    intro i _
    congr 1
    omega

lemma expWaits_mem_exp (b : ℚ) :
    ∀ n made x, x ∈ expWaits b n made → ∃ j, made < j ∧ j ≤ made + n ∧ x = b ^ j := by
  intro n
  induction n with
  | zero => intro made x hx; simp [expWaits] at hx
  | succ m ihm =>
    intro made x hx
    rcases List.mem_cons.mp hx with rfl | hx'
    · exact ⟨made + 1, by omega, by omega, rfl⟩
    · obtain ⟨j, h1, h2, h3⟩ := ihm (made + 1) x hx'
      exact ⟨j, by omega, by omega, h3⟩

lemma expWaits_pairwise {b : ℚ} (hb : 1 < b) :
    ∀ n made, (expWaits b n made).Pairwise (· < ·) := by
  intro n
  induction n with
  | zero => intro made; simp [expWaits]
  | succ m ihm =>
    intro made
    refine List.Pairwise.cons ?_ (ihm (made + 1))
    intro x hx
    obtain ⟨j, h1, _, rfl⟩ := expWaits_mem_exp b m (made + 1) x hx
    exact pow_lt_pow_right₀ hb h1

lemma fetchAux_step {E A : Type} (oracle : Nat → Except E A) (b : ℚ)
    (n made : Nat) (last : Option E) (ws : List ℚ) (e : E)
    (he : oracle (made + 1) = .error e) :
    fetchAux oracle b (n + 1) made last ws =
      fetchAux oracle b n (made + 1) (some e) (b ^ (made + 1) :: ws) := by
  simp only [fetchAux, he]

lemma fetchAux_allFail {E A : Type} (oracle : Nat → Except E A) (b : ℚ) :
    ∀ (n made : Nat) (last : Option E) (ws : List ℚ), 1 ≤ n →
      (∀ i, made < i → i ≤ made + n → isOkB (oracle i) = false) →
      fetchAux oracle b n made last ws =
        ⟨.error (errAt oracle (made + n)), made + n, ws.reverse ++ expWaits b n made⟩ := by
  intro n
  induction n with
  | zero => intro made last ws h _; omega
  | succ m ihm =>
    intro made last ws _ hfail
    have h1 : isOkB (oracle (made + 1)) = false := hfail (made + 1) (by omega) (by omega)
    obtain ⟨e, he⟩ : ∃ e, oracle (made + 1) = .error e := by
      cases ho : oracle (made + 1) with
      | ok a => rw [ho] at h1; simp [isOkB] at h1
      | error e => exact ⟨e, rfl⟩
    rw [fetchAux_step oracle b m made last ws e he]
    cases m with
    | zero =>
      simp only [fetchAux]
      simp [errAt, he, expWaits, List.reverse_cons]
    | succ k =>
      rw [ihm (made + 1) (some e) (b ^ (made + 1) :: ws) (by omega)
        (fun i hi1 hi2 => hfail i (by omega) (by omega))]
      have hnum : made + 1 + (k + 1) = made + (k + 1 + 1) := by omega
      simp only [FetchTrace.mk.injEq]
      refine ⟨by rw [hnum], by omega, ?_⟩
      simp [expWaits, List.reverse_cons]

lemma fetchAux_isOk_iff {E A : Type} (oracle : Nat → Except E A) (b : ℚ) :
    ∀ (n made : Nat) (last : Option E) (ws : List ℚ),
      isOkB (fetchAux oracle b n made last ws).result = false ↔
        ∀ i, made < i → i ≤ made + n → isOkB (oracle i) = false := by
  intro n
  induction n with
  | zero =>
    intro made last ws
    constructor
    · intro _ i h1 h2; omega
    · intro _; simp [fetchAux, isOkB]
  | succ m ihm =>
    intro made last ws
    cases ho : oracle (made + 1) with
    | ok a =>
      simp only [fetchAux, ho]
      constructor
      · intro hfalse; simp [isOkB] at hfalse
      · intro hall
        have := hall (made + 1) (by omega) (by omega)
        rw [ho] at this
        simp [isOkB] at this
    | error e =>
      simp only [fetchAux, ho]
      rw [ihm]
      constructor
      · intro hall i hi1 hi2
        by_cases hi : i = made + 1
        · subst hi; simp [isOkB, ho]
        · exact hall i (by omega) (by omega)
      · intro hall i hi1 hi2
        exact hall i (by omega) (by omega)

/-- C9: when every attempt fails, `fetch` makes exactly `retries` attempts,
re-raises the last attempt's failure, computes the waits
`backoff ^ 1, ..., backoff ^ retries` (jitter aside), which are strictly
increasing whenever `1 < backoff` (as for the configured `1.4`); and, for
any per-attempt outcome, `fetch` raises if and only if all `retries`
attempts fail. -/
theorem c9_retry (E A : Type) (oracle : Nat → Except E A) (retries : Nat) (backoff : ℚ)
    (hr : 1 ≤ retries)
    (hfail : ∀ i, 1 ≤ i → i ≤ retries → isOkB (oracle i) = false) :
    (fetch oracle retries backoff).attempts = retries ∧
    (fetch oracle retries backoff).result = .error (errAt oracle retries) ∧
    errAt oracle retries ≠ none ∧
    (fetch oracle retries backoff).waits = (List.range retries).map (fun i => backoff ^ (i + 1)) ∧
    (1 < backoff → ((fetch oracle retries backoff).waits).Pairwise (· < ·)) ∧
    (∀ oracle2 : Nat → Except E A,
      isOkB (fetch oracle2 retries backoff).result = false ↔
        ∀ i, 1 ≤ i → i ≤ retries → isOkB (oracle2 i) = false) := by
  have hmain := fetchAux_allFail oracle backoff retries 0 none [] hr
    (fun i h1 h2 => hfail i (by omega) (by omega))
  rw [Nat.zero_add] at hmain
  have hfetch : fetch oracle retries backoff =
      ⟨.error (errAt oracle retries), retries, [].reverse ++ expWaits backoff retries 0⟩ := by
    rw [fetch, hmain]
  have hw : (fetch oracle retries backoff).waits = expWaits backoff retries 0 := by
    rw [hfetch]; simp
  refine ⟨by rw [hfetch], by rw [hfetch], ?_, ?_, ?_, ?_⟩
  · have hlast := hfail retries (by omega) (le_refl retries)
    cases ho : oracle retries with
    | ok a => rw [ho] at hlast; simp [isOkB] at hlast
    | error e => simp [errAt, ho]
  · rw [hw, expWaits_eq_range]
    apply List.map_congr_left
    intro i _
    congr 1
    omega
  · intro hb
    rw [hw]
    exact expWaits_pairwise hb retries 0
  · intro oracle2
    have := fetchAux_isOk_iff oracle2 backoff retries 0 none []
    rw [Nat.zero_add] at this
    rw [fetch]
    rw [this]
    constructor
    · intro hall i h1 h2; exact hall i (by omega) h2
    · intro hall i h1 h2; exact hall i (by omega) h2

/-- C9 witness: with `retries = 3`, `backoff = 7/5` and an always-failing
transport, three attempts are made, the waits increase strictly, and the
failure is re-raised. -/
theorem c9_retry_witness :
    (fetch w9oracle 3 (7 / 5)).attempts = 3 ∧
    (fetch w9oracle 3 (7 / 5)).result = .error (errAt w9oracle 3) ∧
    errAt w9oracle 3 ≠ none ∧
    (fetch w9oracle 3 (7 / 5)).waits = (List.range 3).map (fun i => (7 / 5 : ℚ) ^ (i + 1)) ∧
    (1 < (7 / 5 : ℚ) → ((fetch w9oracle 3 (7 / 5)).waits).Pairwise (· < ·)) ∧
    (∀ oracle2 : Nat → Except (List Char) (List Char),
      isOkB (fetch oracle2 3 (7 / 5)).result = false ↔
        ∀ i, 1 ≤ i → i ≤ 3 → isOkB (oracle2 i) = false) :=
  c9_retry (List Char) (List Char) w9oracle 3 (7 / 5) (by omega) (fun i _ _ => rfl)

end Cafe
